import Mathlib

/-!
Shallow embedding of the SOO (Self-Organizing Orrery) core from `src/SOO.ipynb`.

Scalars are modelled as exact rationals.  The convergence metric additionally
tracks NaN propagation (numpy's `var(ddof=1)` yields NaN on a sample of fewer
than two rows, and comparisons with NaN are false), via the type `F` below.
Randomized inputs (per-epoch shuffle permutations and the fixed reference
subsample) are passed to `train` explicitly as oracle arguments.
-/

namespace SOO

/-- A numpy scalar for `calc_convergence`: either NaN or an exact rational
value.  Arithmetic with NaN yields NaN and every comparison with NaN is
false, as in IEEE 754.  Division by zero yields NaN; in this program the
only reachable division by zero is numpy's `0/0` (unbiased variance of a
sample with fewer than two rows, whose numerator is exactly zero), where
NaN is the IEEE result as well. -/
inductive F where
  | nan : F
  | val : ℚ → F
deriving DecidableEq

def F.add : F → F → F
  | val a, val b => val (a + b)
  | _, _ => nan

def F.sub : F → F → F
  | val a, val b => val (a - b)
  | _, _ => nan

def F.mul : F → F → F
  | val a, val b => val (a * b)
  | _, _ => nan

def F.div : F → F → F
  | val a, val b => if b = 0 then nan else val (a / b)
  | _, _ => nan

/-- `a <= b` as numpy evaluates it: false when either side is NaN. -/
def F.le : F → F → Bool
  | val a, val b => decide (a ≤ b)
  | _, _ => false

/-- `a < b` as numpy evaluates it: false when either side is NaN. -/
def F.lt : F → F → Bool
  | val a, val b => decide (a < b)
  | _, _ => false

instance : Add F := ⟨F.add⟩

instance : Sub F := ⟨F.sub⟩

instance : Mul F := ⟨F.mul⟩

instance : Div F := ⟨F.div⟩

def Fsum (l : List F) : F := l.foldr (fun a b => a + b) (F.val 0)

/-- The state of `SOOMap` (`src/SOO.ipynb`, class `SOOMap.__init__`).
The constructor's random initialization is not modelled; theorems quantify
over all states satisfying the constructor's shape invariants.  The
`device` field (GPU/CPU plumbing) is out of the algorithmic core and
omitted. -/
structure SOOMap where
  num_nodes : ℕ
  input_dim : ℕ
  weights : List (List ℚ)
  coordinates : List (List ℚ)
  initial_lr : ℚ
  current_lr : ℚ
  initial_radius : ℚ
  current_radius : ℚ
  distance_metric : List (List ℚ) → List ℚ → List ℚ
  last_cv : ℚ

/-- Default metric from `__init__`:
`lambda w, x: torch.sum((w - x) ** 2, dim=1)` — per node row, the sum of
squared componentwise differences to `x`. -/
def default_metric (w : List (List ℚ)) (x : List ℚ) : List ℚ :=
  w.map (fun row => ((List.zipWith (fun a b => a - b) row x).map (fun t => t * t)).sum)

/-- `torch.argmin` on a 1-D tensor: the index of the first minimal entry
(documented tie-break: "the indices of the first minimal value are
returned").  On an empty tensor torch raises; the value `0` here is
unreachable under the nonemptiness hypotheses used below. -/
def torch_argmin : List ℚ → ℕ
  | [] => 0
  | [_] => 0
  | a :: b :: t =>
    let r := torch_argmin (b :: t)
    if (b :: t).getD r 0 < a then r + 1 else 0

/-- `SOOMap.find_bmu`: distances of `x` to every node weight under the
configured metric, then `torch.argmin`.  The source only reshapes `x`
(`x.view(-1)`) and reads `self`; it assigns no attribute, so it is embedded
as a pure function of the state. -/
def find_bmu (m : SOOMap) (x : List ℚ) : ℕ :=
  torch_argmin (m.distance_metric m.weights x)

/-- `SOOMap.update_weights`:
`self.weights[bmu_idx] += lr * (x - self.weights[bmu_idx])`, an elementwise
in-place update of the BMU's row only. -/
def update_weights (m : SOOMap) (bmu_idx : ℕ) (x : List ℚ) (lr : ℚ) : SOOMap :=
  { m with weights := (m.weights.set bmu_idx
      (List.zipWith (fun w xi => w + lr * (xi - w)) (m.weights.getD bmu_idx []) x)) }

/-- One iteration of the loop body of `SOOMap.update_coordinates`:
`self.coordinates[ni] += coord_lr * (bmu_coord - self.coordinates[ni])`.
`bmu_coord = self.coordinates[bmu_idx]` is a torch view, so it is read from
the current array on every iteration. -/
def coord_step (bmu_idx : ℕ) (coord_lr : ℚ) (cs : List (List ℚ)) (ni : ℕ) : List (List ℚ) :=
  cs.set ni (List.zipWith (fun c bc => c + coord_lr * (bc - c)) (cs.getD ni []) (cs.getD bmu_idx []))

/-- `SOOMap.update_coordinates`: sequentially pull every listed neighbor's
coordinate toward the BMU's coordinate. -/
def update_coordinates (m : SOOMap) (bmu_idx : ℕ) (neighbor_indices : List ℕ)
    (coord_lr : ℚ) : SOOMap :=
  { m with coordinates := neighbor_indices.foldl (coord_step bmu_idx coord_lr) m.coordinates }

/-- Column `d` of a row-major matrix (numpy's `axis=0` view of feature `d`). -/
def colQ (rows : List (List ℚ)) (d : ℕ) : List ℚ := rows.map (fun r => r.getD d 0)

/-- numpy `mean(axis=0)` of column `d`: sum divided by the number of rows
(`0/0 = NaN` on an empty sample). -/
def meanF (rows : List (List ℚ)) (d : ℕ) : F :=
  F.val (colQ rows d).sum / F.val (rows.length : ℚ)

/-- numpy `var(axis=0, ddof=1)` of column `d`: sum of squared deviations
from the mean, divided by `max (n - 1) 0` (numpy clamps the degrees of
freedom at zero; `Nat` subtraction does the clamping here).  For `n ≤ 1`
this is `0 / 0 = NaN`. -/
def varF (rows : List (List ℚ)) (d : ℕ) : F :=
  Fsum ((colQ rows d).map (fun x => (F.val x - meanF rows d) * (F.val x - meanF rows d))) /
    F.val ((rows.length - 1 : ℕ) : ℚ)

/-- The per-feature test of `SOOMap.calc_convergence` for dimension `d`.
The source's mean check is `abs(m1 - m2) <= 1.96 * np.sqrt(v1/n1 + v2/n2)`;
it is stated here in the algebraically equivalent squared form
`(m1 - m2)^2 <= 1.96^2 * (v1/n1 + v2/n2)` to keep scalars rational (both
sides of the source's comparison are nonnegative when defined, the
comparison is false when the radicand is negative — `sqrt` returns NaN —
and false on NaN either way).  The variance check is the source's
`ratio = v1 / (v2 + 1e-9)`, flipped to `1.0 / (ratio + 1e-9)` when
`ratio < 1`, then compared with `2.0`. -/
def dim_embedded (data_ref ws : List (List ℚ)) (d : ℕ) : Bool :=
  let m1 := meanF data_ref d
  let m2 := meanF ws d
  let v1 := varF data_ref d
  let v2 := varF ws d
  let n1 := F.val (data_ref.length : ℚ)
  let n2 := F.val (ws.length : ℚ)
  let mean_diff_ok := F.le ((m1 - m2) * (m1 - m2))
      ((F.val (196/100) * F.val (196/100)) * (v1 / n1 + v2 / n2))
  let vr := v1 / (v2 + F.val (1/1000000000))
  let vr2 := if F.lt vr (F.val 1) then F.val 1 / (vr + F.val (1/1000000000)) else vr
  let var_diff_ok := F.le vr2 (F.val 2)
  mean_diff_ok && var_diff_ok

/-- `SOOMap.calc_convergence`: count the features passing both checks
(`for d in range(self.input_dim)`), divide by `input_dim`, store the result
in `self.last_cv` and return it.  The `significance` parameter is accepted
but never read by the body, exactly as in the source (the fixed critical
value 1.96 is always used). -/
def calc_convergence (m : SOOMap) (data_ref : List (List ℚ)) (significance : ℚ) : ℚ × SOOMap :=
  let embedded_features :=
    ((List.range m.input_dim).filter (fun d => dim_embedded data_ref m.weights d)).length
  let cv_value : ℚ := (embedded_features : ℚ) / (m.input_dim : ℚ)
  (cv_value, { m with last_cv := cv_value })

/-- Neighbor selection in `SOOMap.train`:
`coord_dists = torch.sum((self.coordinates - bmu_coord) ** 2, dim=1)` and
`neighbor_idx = torch.where(coord_dists <= self.current_radius ** 2)[0]`
(`torch.where` on a 1-D mask returns the selected indices in increasing
order). -/
def select_neighbors (m : SOOMap) (bmu_idx : ℕ) : List ℕ :=
  (List.range m.coordinates.length).filter (fun j =>
    decide ((List.zipWith (fun a b => (a - b) * (a - b))
        (m.coordinates.getD j []) (m.coordinates.getD bmu_idx [])).sum ≤ m.current_radius ^ 2))

/-- The per-sample body of `SOOMap.train`: BMU search, neighbor selection
by the current radius, weight update with the current learning rate, then
coordinate update with `coord_lr = self.current_lr`. -/
def train_step (m : SOOMap) (x : List ℚ) : SOOMap :=
  let bmu_idx := find_bmu m x
  let neighbor_idx := select_neighbors m bmu_idx
  let m1 := update_weights m bmu_idx x m.current_lr
  update_coordinates m1 bmu_idx neighbor_idx m.current_lr

/-- The batch slicing of `SOOMap.train`:
`for i in range(0, n_samples, batch_size): batch = data_shuffled[i:i+batch_size]`.
For `batch_size = 0` Python's `range` raises; the claims below assume
`1 ≤ batch_size`. -/
def batches {α : Type} (bs : ℕ) : List α → List (List α)
  | [] => []
  | x :: xs => (x :: xs.take (bs - 1)) :: batches bs (xs.drop (bs - 1))
termination_by l => l.length
decreasing_by simp [List.length_drop]; omega

/-- One epoch of `SOOMap.train`: iterate the per-sample update over the
shuffled data in batch slices, then compute the convergence on the fixed
reference data (with the default `significance = 0.05`) and apply the decay
schedule `current_lr = max(min_lr, initial_lr * (1 - cv))`,
`current_radius = max(min_radius, initial_radius * (1 - cv))`. -/
def run_epoch (m : SOOMap) (ref_data : List (List ℚ)) (shuffled : List (List ℚ))
    (batch_size : ℕ) (min_lr min_radius : ℚ) : SOOMap :=
  let m1 := (batches batch_size shuffled).foldl (fun acc batch => batch.foldl train_step acc) m
  let p := calc_convergence m1 ref_data (5/100)
  { p.2 with
    current_lr := max min_lr (p.2.initial_lr * (1 - p.1)),
    current_radius := max min_radius (p.2.initial_radius * (1 - p.1)) }

/-- `SOOMap.train`.  The per-epoch `torch.randperm` results are passed in
as `perms` (one index permutation per epoch; `data_shuffled = data[perm]`),
and the pre-selected reference subsample (chosen once before the epoch
loop, from `np.random.choice`, or the whole dataset when the requested
size is non-positive or exceeds the dataset) is passed as `ref_data`. -/
def train (m : SOOMap) (data : List (List ℚ)) (perms : List (List ℕ))
    (ref_data : List (List ℚ)) (batch_size : ℕ) (min_lr min_radius : ℚ) : SOOMap :=
  perms.foldl (fun acc perm =>
    run_epoch acc ref_data (perm.map (fun i => data.getD i [])) batch_size min_lr min_radius) m

/-- Exact-rational value of numpy's `mean` of a list (defined for stating
hypotheses about nondegenerate samples; agrees with `meanF` when the list
is nonempty). -/
def meanQ (l : List ℚ) : ℚ := l.sum / (l.length : ℚ)

/-- Exact-rational value of numpy's `var(ddof=1)` of a list (agrees with
`varF` when the list has at least two entries). -/
def varQ (l : List ℚ) : ℚ :=
  (l.map (fun x => (x - meanQ l) * (x - meanQ l))).sum / ((l.length - 1 : ℕ) : ℚ)

/-- torch broadcasting for an elementwise binary operation on two 1-D
tensors `a` and `b`: defined when the lengths agree or either operand has
length 1 (which is then repeated); any other combination raises a shape
error, modelled as `none`. -/
def broadcast2 (f : ℚ → ℚ → ℚ) (a b : List ℚ) : Option (List ℚ) :=
  if a.length = b.length then some (List.zipWith f a b)
  else if a.length = 1 then some (b.map (fun y => f (a.getD 0 0) y))
  else if b.length = 1 then some (a.map (fun x => f x (b.getD 0 0)))
  else none

/-- The default metric `torch.sum((w - x) ** 2, dim=1)` with torch's shape
semantics made explicit: the row-wise subtraction `w - x` broadcasts when
`x` has length 1 or the rows have length 1, and raises (`none`) otherwise. -/
def default_metric_checked (w : List (List ℚ)) (x : List ℚ) : Option (List ℚ) :=
  w.mapM (fun row => (broadcast2 (fun a b => a - b) row x).map
    (fun dif => (dif.map (fun t => t * t)).sum))

/-- `SOOMap.find_bmu` under the default metric with torch's shape checking:
`none` models the `RuntimeError` torch raises on non-broadcastable shapes. -/
def find_bmu_checked (m : SOOMap) (x : List ℚ) : Option ℕ :=
  (default_metric_checked m.weights x).map torch_argmin

/-- torch in-place addition `row += r`: the result of `r` must broadcast to
the shape of `row` itself (`r` of the same length, or of length 1). -/
def inplace_add (row r : List ℚ) : Option (List ℚ) :=
  if r.length = row.length then some (List.zipWith (fun a b => a + b) row r)
  else if r.length = 1 then some (row.map (fun a => a + r.getD 0 0))
  else none

/-- `SOOMap.update_weights` with torch's shape checking:
`x - self.weights[bmu_idx]` broadcasts (or raises), is scaled by `lr`, and
is added in place to the BMU row (which again broadcasts or raises). -/
def update_weights_checked (m : SOOMap) (bmu_idx : ℕ) (x : List ℚ) (lr : ℚ) : Option SOOMap :=
  (broadcast2 (fun a b => a - b) x (m.weights.getD bmu_idx [])).bind (fun dif =>
    (inplace_add (m.weights.getD bmu_idx []) (dif.map (fun t => lr * t))).map (fun newRow =>
      { m with weights := m.weights.set bmu_idx newRow }))

/-- A concrete map with four nodes, `input_dim = 3` and all-zero weights
(the spec's "both all zeros, D = 3" convergence scenario). -/
def zeroMap : SOOMap :=
  { num_nodes := 4
    input_dim := 3
    weights := [[0, 0, 0], [0, 0, 0], [0, 0, 0], [0, 0, 0]]
    coordinates := [[0, 0, 0], [0, 0, 1], [0, 1, 0], [1, 0, 0]]
    initial_lr := 1/10
    current_lr := 1/10
    initial_radius := 1/2
    current_radius := 1/2
    distance_metric := default_metric
    last_cv := 0 }

/-- A concrete map with two nodes and `input_dim = 1`, used with a
single-row reference sample (degenerate sample size). -/
def degMap : SOOMap :=
  { num_nodes := 2
    input_dim := 1
    weights := [[1], [9]]
    coordinates := [[0, 0, 0], [1, 0, 0]]
    initial_lr := 1/10
    current_lr := 1/10
    initial_radius := 1/2
    current_radius := 1/2
    distance_metric := default_metric
    last_cv := 0 }

/-- A concrete map with two nodes and `input_dim = 3`, used with the
length-1 input vector `[5]` (dimension mismatch that torch broadcasts). -/
def bcastMap : SOOMap :=
  { num_nodes := 2
    input_dim := 3
    weights := [[0, 0, 0], [1, 1, 1]]
    coordinates := [[0, 0, 0], [1, 0, 0]]
    initial_lr := 1/10
    current_lr := 1/10
    initial_radius := 1/2
    current_radius := 1/2
    distance_metric := default_metric
    last_cv := 0 }

/-- A concrete map with two nodes, `input_dim = 1` and weights of
nondegenerate variance, fed back to the convergence metric as its own
reference data. -/
def selfMap : SOOMap :=
  { num_nodes := 2
    input_dim := 1
    weights := [[0], [2]]
    coordinates := [[0, 0, 0], [1, 0, 0]]
    initial_lr := 1/10
    current_lr := 1/10
    initial_radius := 1/2
    current_radius := 1/2
    distance_metric := default_metric
    last_cv := 0 }

/-! ### General list helpers -/

theorem getD_set_eq {α : Type} (l : List α) (i : ℕ) (a d : α) (h : i < l.length) :
    (l.set i a).getD i d = a := by
  rw [List.getD_eq_getElem _ _ (by simpa using h)]
  simp

theorem getD_set_ite {α : Type} (l : List α) (i : ℕ) (a : α) (d : α) :
    (l.set i a).getD i d = if i < l.length then a else d := by
  by_cases h : i < l.length
  · rw [if_pos h, getD_set_eq _ _ _ _ h]
  · rw [if_neg h, List.getD_eq_default]
    simpa using Nat.le_of_not_lt h

theorem getD_set_ne {α : Type} (l : List α) (i j : ℕ) (a d : α) (h : i ≠ j) :
    (l.set i a).getD j d = l.getD j d := by
  by_cases hj : j < l.length
  · rw [List.getD_eq_getElem _ _ (by simpa using hj), List.getD_eq_getElem _ _ hj]
    exact List.getElem_set_ne h _
  · rw [List.getD_eq_default _ _ (by simpa using Nat.le_of_not_lt hj),
      List.getD_eq_default _ _ (Nat.le_of_not_lt hj)]

theorem set_getD_self {α : Type} (l : List α) (i : ℕ) (d : α) :
    l.set i (l.getD i d) = l := by
  induction l generalizing i with
  | nil => rfl
  | cons x xs ih =>
    cases i with
    | zero => rfl
    | succ n =>
      show x :: xs.set n (xs.getD n d) = x :: xs
      rw [ih]

theorem getD_zipWith {α β γ : Type} (f : α → β → γ) :
    ∀ (as : List α) (bs : List β) (t : ℕ) (d : γ) (da : α) (db : β),
      t < as.length → t < bs.length →
      (List.zipWith f as bs).getD t d = f (as.getD t da) (bs.getD t db) := by
  intro as
  induction as with
  | nil => intro bs t d da db h; simp at h
  | cons a as ih =>
    intro bs t d da db ha hb
    cases bs with
    | nil => simp at hb
    | cons b bs =>
      cases t with
      | zero => rfl
      | succ t =>
        simp only [List.zipWith_cons_cons, List.getD_cons_succ]
        exact ih bs t d da db (by simpa using ha) (by simpa using hb)

theorem zipWith_self {α : Type} (f : α → α → α) (h : ∀ a, f a a = a) (l : List α) :
    List.zipWith f l l = l := by
  induction l with
  | nil => rfl
  | cons a l ih => simp [ih, h]

theorem zipWith_left_const {α β : Type} (f : α → β → α) (h : ∀ a b, f a b = a) :
    ∀ (as : List α) (bs : List β), as.length ≤ bs.length → List.zipWith f as bs = as := by
  intro as
  induction as with
  | nil => intro bs _; rfl
  | cons a as ih =>
    intro bs hl
    cases bs with
    | nil => simp at hl
    | cons b bs => simp [h, ih bs (by simpa using hl)]

theorem zipWith_right_const {α β : Type} (f : α → β → β) (h : ∀ a b, f a b = b) :
    ∀ (as : List α) (bs : List β), bs.length ≤ as.length → List.zipWith f as bs = bs := by
  intro as
  induction as with
  | nil => intro bs hl; simp at hl; simp [hl]
  | cons a as ih =>
    intro bs hl
    cases bs with
    | nil => rfl
    | cons b bs => simp [h, ih bs (by simpa using hl)]

/-! ### The argmin of `find_bmu` -/

/-- `torch_argmin` returns an in-range index attaining the minimum, and on
exact ties the lowest such index (every strictly earlier entry is strictly
larger). -/
theorem torch_argmin_spec :
    ∀ (l : List ℚ), l ≠ [] →
      torch_argmin l < l.length ∧
      (∀ j, j < l.length → l.getD (torch_argmin l) 0 ≤ l.getD j 0) ∧
      (∀ j, j < torch_argmin l → l.getD (torch_argmin l) 0 < l.getD j 0) := by
  intro l
  induction l with
  | nil => intro h; exact absurd rfl h
  | cons a l ih =>
    intro _
    cases l with
    | nil =>
      refine ⟨by simp [torch_argmin], ?_, ?_⟩
      · intro j hj
        have hj0 : j = 0 := by
          simp only [List.length_cons, List.length_nil] at hj
          omega
        subst hj0
        exact le_refl _
      · intro j hj
        simp [torch_argmin] at hj
    | cons b t =>
      obtain ⟨h1, h2, h3⟩ := ih (by simp)
      have hdef : torch_argmin (a :: b :: t) =
          if (b :: t).getD (torch_argmin (b :: t)) 0 < a
          then torch_argmin (b :: t) + 1 else 0 := rfl
      by_cases hc : (b :: t).getD (torch_argmin (b :: t)) 0 < a
      · rw [hdef, if_pos hc]
        refine ⟨by simpa using Nat.succ_lt_succ h1, ?_, ?_⟩
        · intro j hj
          cases j with
          | zero =>
            simp only [List.getD_cons_succ, List.getD_cons_zero]
            exact le_of_lt hc
          | succ j =>
            simp only [List.getD_cons_succ]
            exact h2 j (by simpa using hj)
        · intro j hj
          cases j with
          | zero =>
            simp only [List.getD_cons_succ, List.getD_cons_zero]
            exact hc
          | succ j =>
            simp only [List.getD_cons_succ]
            exact h3 j (by omega)
      · rw [hdef, if_neg hc]
        refine ⟨by simp, ?_, ?_⟩
        · intro j hj
          cases j with
          | zero => exact le_refl _
          | succ j =>
            simp only [List.getD_cons_zero, List.getD_cons_succ]
            exact le_trans (not_lt.mp hc) (h2 j (by simpa using hj))
        · intro j hj
          exact absurd hj (by omega)

/-- C2: for every weight configuration and input, `find_bmu` returns an
index in `[0, N)` of a node attaining the minimum of the configured
distance metric's output, and on an exact tie the lowest such index (every
strictly smaller index has a strictly larger distance).  The hypothesis is
the metric's contract from the data model: it returns one scalar per node.
`find_bmu` is embedded as a pure function of the state — the source method
assigns no attribute, so it mutates no map state by construction. -/
theorem find_bmu_spec (m : SOOMap) (x : List ℚ)
    (hlen : (m.distance_metric m.weights x).length = m.num_nodes)
    (hN : 0 < m.num_nodes) :
    find_bmu m x < m.num_nodes ∧
    (∀ j, j < m.num_nodes →
      (m.distance_metric m.weights x).getD (find_bmu m x) 0 ≤
        (m.distance_metric m.weights x).getD j 0) ∧
    (∀ j, j < find_bmu m x →
      (m.distance_metric m.weights x).getD (find_bmu m x) 0 <
        (m.distance_metric m.weights x).getD j 0) := by
  have hne : m.distance_metric m.weights x ≠ [] := by
    intro h
    rw [h] at hlen
    simp at hlen
    omega
  obtain ⟨h1, h2, h3⟩ := torch_argmin_spec _ hne
  exact ⟨hlen ▸ h1, fun j hj => h2 j (by omega), h3⟩

/-- Witness for C2 at a concrete map and input: two nodes at distances 16
and 16 (an exact tie), so the BMU index is 0. -/
theorem find_bmu_spec_witness :
    find_bmu degMap [5] < degMap.num_nodes ∧
    (∀ j, j < degMap.num_nodes →
      (degMap.distance_metric degMap.weights [5]).getD (find_bmu degMap [5]) 0 ≤
        (degMap.distance_metric degMap.weights [5]).getD j 0) ∧
    (∀ j, j < find_bmu degMap [5] →
      (degMap.distance_metric degMap.weights [5]).getD (find_bmu degMap [5]) 0 <
        (degMap.distance_metric degMap.weights [5]).getD j 0) :=
  find_bmu_spec degMap [5] (by decide) (by decide)

/-! ### Weight update -/

/-- C4: one call to `update_weights` moves `weights[bmu]` elementwise to
`weights[bmu] + lr * (x - weights[bmu])` and changes nothing else: every
other row, the coordinates, the learning parameters and the stored
convergence are untouched; with `lr = 0` the weights are unchanged and
with `lr = 1` the BMU row becomes exactly `x`. -/
theorem update_weights_spec (m : SOOMap) (bmu_idx : ℕ) (x : List ℚ) (lr : ℚ)
    (hb : bmu_idx < m.weights.length)
    (hx : x.length = (m.weights.getD bmu_idx []).length) :
    (∀ t, t < x.length →
      ((update_weights m bmu_idx x lr).weights.getD bmu_idx []).getD t 0 =
        (m.weights.getD bmu_idx []).getD t 0 +
          lr * (x.getD t 0 - (m.weights.getD bmu_idx []).getD t 0)) ∧
    (∀ j, j ≠ bmu_idx →
      (update_weights m bmu_idx x lr).weights.getD j [] = m.weights.getD j []) ∧
    (update_weights m bmu_idx x lr).coordinates = m.coordinates ∧
    (update_weights m bmu_idx x lr).current_lr = m.current_lr ∧
    (update_weights m bmu_idx x lr).current_radius = m.current_radius ∧
    (update_weights m bmu_idx x lr).last_cv = m.last_cv ∧
    (lr = 0 → (update_weights m bmu_idx x lr).weights = m.weights) ∧
    (lr = 1 → (update_weights m bmu_idx x lr).weights.getD bmu_idx [] = x) := by
  refine ⟨?_, ?_, rfl, rfl, rfl, rfl, ?_, ?_⟩
  · intro t ht
    show ((m.weights.set bmu_idx _).getD bmu_idx []).getD t 0 = _
    rw [getD_set_eq _ _ _ _ hb]
    rw [getD_zipWith _ _ _ _ _ 0 0 (by omega) (by omega)]
  · intro j hj
    exact getD_set_ne _ _ _ _ _ (fun h => hj h.symm)
  · intro h0
    subst h0
    show m.weights.set bmu_idx _ = m.weights
    rw [zipWith_left_const _ (by intro a b; ring) _ _ (by omega), set_getD_self]
  · intro h1
    subst h1
    show (m.weights.set bmu_idx _).getD bmu_idx [] = x
    rw [zipWith_right_const _ (by intro a b; ring) _ _ (by omega), getD_set_eq _ _ _ _ hb]

/-- Witness for C4 at a concrete map, row, input and learning rate. -/
theorem update_weights_spec_witness :
    (∀ t, t < [5, 7, 3].length →
      ((update_weights bcastMap 1 [5, 7, 3] (1/2)).weights.getD 1 []).getD t 0 =
        (bcastMap.weights.getD 1 []).getD t 0 +
          (1/2) * ([5, 7, 3].getD t 0 - (bcastMap.weights.getD 1 []).getD t 0)) ∧
    (∀ j, j ≠ 1 →
      (update_weights bcastMap 1 [5, 7, 3] (1/2)).weights.getD j [] = bcastMap.weights.getD j []) ∧
    (update_weights bcastMap 1 [5, 7, 3] (1/2)).coordinates = bcastMap.coordinates ∧
    (update_weights bcastMap 1 [5, 7, 3] (1/2)).current_lr = bcastMap.current_lr ∧
    (update_weights bcastMap 1 [5, 7, 3] (1/2)).current_radius = bcastMap.current_radius ∧
    (update_weights bcastMap 1 [5, 7, 3] (1/2)).last_cv = bcastMap.last_cv ∧
    ((1/2 : ℚ) = 0 → (update_weights bcastMap 1 [5, 7, 3] (1/2)).weights = bcastMap.weights) ∧
    ((1/2 : ℚ) = 1 → (update_weights bcastMap 1 [5, 7, 3] (1/2)).weights.getD 1 [] = [5, 7, 3]) :=
  update_weights_spec bcastMap 1 [5, 7, 3] (1/2) (by decide) (by decide)

/-! ### Coordinate update -/

theorem coord_fold_length (b : ℕ) (lr : ℚ) :
    ∀ (ns : List ℕ) (cs : List (List ℚ)),
      (ns.foldl (coord_step b lr) cs).length = cs.length := by
  intro ns
  induction ns with
  | nil => intro cs; rfl
  | cons a t ih =>
    intro cs
    show (t.foldl (coord_step b lr) (coord_step b lr cs a)).length = cs.length
    rw [ih, coord_step, List.length_set]

theorem coord_step_bmu (b : ℕ) (lr : ℚ) (cs : List (List ℚ)) (ni : ℕ) :
    (coord_step b lr cs ni).getD b [] = cs.getD b [] := by
  by_cases h : ni = b
  · subst h
    show (cs.set ni _).getD ni [] = cs.getD ni []
    rw [zipWith_self _ (by intro a; ring), set_getD_self]
  · exact getD_set_ne _ _ _ _ _ h

theorem coord_fold_bmu (b : ℕ) (lr : ℚ) :
    ∀ (ns : List ℕ) (cs : List (List ℚ)),
      (ns.foldl (coord_step b lr) cs).getD b [] = cs.getD b [] := by
  intro ns
  induction ns with
  | nil => intro cs; rfl
  | cons a t ih =>
    intro cs
    show (t.foldl (coord_step b lr) (coord_step b lr cs a)).getD b [] = cs.getD b []
    rw [ih, coord_step_bmu]

theorem coord_step_other (b : ℕ) (lr : ℚ) (cs : List (List ℚ)) (a j : ℕ) (h : a ≠ j) :
    (coord_step b lr cs a).getD j [] = cs.getD j [] := by
  show (cs.set a _).getD j [] = _
  exact getD_set_ne _ _ _ _ _ h

theorem coord_fold_not_mem (b : ℕ) (lr : ℚ) :
    ∀ (ns : List ℕ) (cs : List (List ℚ)) (j : ℕ), j ∉ ns →
      (ns.foldl (coord_step b lr) cs).getD j [] = cs.getD j [] := by
  intro ns
  induction ns with
  | nil => intro cs j _; rfl
  | cons a t ih =>
    intro cs j hj
    show (t.foldl (coord_step b lr) (coord_step b lr cs a)).getD j [] = cs.getD j []
    rw [ih _ _ (fun h => hj (List.mem_cons_of_mem a h))]
    exact coord_step_other _ _ _ _ _
      (by intro h; exact hj (by rw [← h]; exact List.mem_cons_self a t))

theorem coord_fold_mem (b : ℕ) (lr : ℚ) :
    ∀ (ns : List ℕ) (cs : List (List ℚ)) (ni : ℕ), ns.Nodup → ni ∈ ns →
      (ns.foldl (coord_step b lr) cs).getD ni [] =
        List.zipWith (fun c bc => c + lr * (bc - c)) (cs.getD ni []) (cs.getD b []) := by
  intro ns
  induction ns with
  | nil => intro cs ni _ h; simp at h
  | cons a t ih =>
    intro cs ni hnd hni
    have hat : a ∉ t := (List.nodup_cons.mp hnd).1
    show (t.foldl (coord_step b lr) (coord_step b lr cs a)).getD ni [] = _
    rcases List.mem_cons.mp hni with h | h
    · subst h
      rw [coord_fold_not_mem _ _ _ _ _ hat]
      show (cs.set ni _).getD ni [] = _
      rw [getD_set_ite]
      by_cases hlt : ni < cs.length
      · rw [if_pos hlt]
      · rw [if_neg hlt, List.getD_eq_default _ _ (Nat.le_of_not_lt hlt)]
        rfl
    · have hne : a ≠ ni := by
        intro hh
        rw [hh] at hat
        exact hat h
      rw [ih _ _ (List.nodup_cons.mp hnd).2 h, coord_step_other _ _ _ _ _ hne,
        coord_step_bmu]

/-- C5: `update_coordinates` moves each listed node's coordinate to
`coordinates[ni] + coord_lr * (coordinates[bmu] - coordinates[ni])`
(computed from the pre-call coordinates); the BMU's own coordinate and
every node outside the selection are unchanged; nothing but `coordinates`
is touched; and when the selection is all nodes and the learning rate is 1,
every coordinate becomes exactly the BMU's pre-update coordinate. -/
theorem update_coordinates_spec (m : SOOMap) (bmu_idx : ℕ) (neighbor_indices : List ℕ)
    (coord_lr : ℚ)
    (hnd : neighbor_indices.Nodup)
    (hmem : bmu_idx ∈ neighbor_indices)
    (hwf : ∀ ni ∈ neighbor_indices, ni < m.coordinates.length) :
    (update_coordinates m bmu_idx neighbor_indices coord_lr).coordinates.getD bmu_idx [] =
      m.coordinates.getD bmu_idx [] ∧
    (∀ j, j ∉ neighbor_indices →
      (update_coordinates m bmu_idx neighbor_indices coord_lr).coordinates.getD j [] =
        m.coordinates.getD j []) ∧
    (∀ ni ∈ neighbor_indices,
      (update_coordinates m bmu_idx neighbor_indices coord_lr).coordinates.getD ni [] =
        List.zipWith (fun c bc => c + coord_lr * (bc - c))
          (m.coordinates.getD ni []) (m.coordinates.getD bmu_idx [])) ∧
    (update_coordinates m bmu_idx neighbor_indices coord_lr).weights = m.weights ∧
    (update_coordinates m bmu_idx neighbor_indices coord_lr).current_lr = m.current_lr ∧
    (update_coordinates m bmu_idx neighbor_indices coord_lr).current_radius = m.current_radius ∧
    (update_coordinates m bmu_idx neighbor_indices coord_lr).last_cv = m.last_cv ∧
    ((∀ r ∈ m.coordinates, r.length = 3) →
      neighbor_indices = List.range m.coordinates.length → coord_lr = 1 →
      ∀ j, j < m.coordinates.length →
        (update_coordinates m bmu_idx neighbor_indices coord_lr).coordinates.getD j [] =
          m.coordinates.getD bmu_idx []) := by
  refine ⟨coord_fold_bmu _ _ _ _, fun j hj => coord_fold_not_mem _ _ _ _ _ hj,
    fun ni hni => coord_fold_mem _ _ _ _ _ hnd hni, rfl, rfl, rfl, rfl, ?_⟩
  intro hshape hall h1 j hjlt
  subst h1
  have hj : j ∈ neighbor_indices := by
    rw [hall]
    exact List.mem_range.mpr hjlt
  show (List.foldl (coord_step bmu_idx 1) m.coordinates neighbor_indices).getD j [] =
    m.coordinates.getD bmu_idx []
  rw [coord_fold_mem _ _ _ _ _ hnd hj]
  have hblt : bmu_idx < m.coordinates.length := hwf bmu_idx hmem
  have hlen : ∀ i, i < m.coordinates.length → (m.coordinates.getD i []).length = 3 := by
    intro i hi
    rw [List.getD_eq_getElem _ _ hi]
    exact hshape _ (List.getElem_mem hi)
  exact zipWith_right_const _ (by intro a b; ring) _ _
    (by rw [hlen j hjlt, hlen bmu_idx hblt])

/-- Witness for C5: a concrete map with four nodes, the full index set as
selection, and learning rate 1. -/
theorem update_coordinates_spec_witness :
    (update_coordinates zeroMap 2 [0, 1, 2, 3] 1).coordinates.getD 2 [] =
      zeroMap.coordinates.getD 2 [] ∧
    (∀ j, j ∉ [0, 1, 2, 3] →
      (update_coordinates zeroMap 2 [0, 1, 2, 3] 1).coordinates.getD j [] =
        zeroMap.coordinates.getD j []) ∧
    (∀ ni ∈ [0, 1, 2, 3],
      (update_coordinates zeroMap 2 [0, 1, 2, 3] 1).coordinates.getD ni [] =
        List.zipWith (fun c bc => c + 1 * (bc - c))
          (zeroMap.coordinates.getD ni []) (zeroMap.coordinates.getD 2 [])) ∧
    (update_coordinates zeroMap 2 [0, 1, 2, 3] 1).weights = zeroMap.weights ∧
    (update_coordinates zeroMap 2 [0, 1, 2, 3] 1).current_lr = zeroMap.current_lr ∧
    (update_coordinates zeroMap 2 [0, 1, 2, 3] 1).current_radius = zeroMap.current_radius ∧
    (update_coordinates zeroMap 2 [0, 1, 2, 3] 1).last_cv = zeroMap.last_cv ∧
    ((∀ r ∈ zeroMap.coordinates, r.length = 3) →
      [0, 1, 2, 3] = List.range zeroMap.coordinates.length → (1 : ℚ) = 1 →
      ∀ j, j < zeroMap.coordinates.length →
        (update_coordinates zeroMap 2 [0, 1, 2, 3] 1).coordinates.getD j [] =
          zeroMap.coordinates.getD 2 []) :=
  update_coordinates_spec zeroMap 2 [0, 1, 2, 3] 1 (by decide) (by decide) (by decide)

/-! ### Scalar lemmas for the convergence metric -/

theorem F.val_add (a b : ℚ) : F.val a + F.val b = F.val (a + b) := rfl

theorem F.val_div (a b : ℚ) (h : b ≠ 0) : F.val a / F.val b = F.val (a / b) := by
  show F.div _ _ = _
  simp [F.div, h]

theorem Fsum_sqdev (l : List ℚ) (μ : ℚ) :
    Fsum (l.map (fun x => (F.val x - F.val μ) * (F.val x - F.val μ))) =
      F.val ((l.map (fun x => (x - μ) * (x - μ))).sum) := by
  induction l with
  | nil => rfl
  | cons a t ih =>
    show (F.val a - F.val μ) * (F.val a - F.val μ) + Fsum (t.map _) = _
    rw [ih, List.map_cons, List.sum_cons]
    show F.val ((a - μ) * (a - μ)) + F.val ((t.map _).sum) = _
    rw [F.val_add]

theorem colQ_length (rows : List (List ℚ)) (d : ℕ) : (colQ rows d).length = rows.length :=
  List.length_map _ _

theorem meanF_eq (rows : List (List ℚ)) (d : ℕ) (h : 0 < rows.length) :
    meanF rows d = F.val (meanQ (colQ rows d)) := by
  unfold meanF meanQ
  rw [colQ_length, F.val_div _ _ (Nat.cast_ne_zero.mpr (by omega))]

theorem varF_eq (rows : List (List ℚ)) (d : ℕ) (h : 2 ≤ rows.length) :
    varF rows d = F.val (varQ (colQ rows d)) := by
  unfold varF varQ
  rw [colQ_length, meanF_eq rows d (by omega), Fsum_sqdev,
    F.val_div _ _ (Nat.cast_ne_zero.mpr (by omega))]

theorem varQ_nonneg (l : List ℚ) : 0 ≤ varQ l := by
  unfold varQ
  apply div_nonneg
  · apply List.sum_nonneg
    intro x hx
    simp only [List.mem_map] at hx
    obtain ⟨y, _, rfl⟩ := hx
    exact mul_self_nonneg _
  · exact Nat.cast_nonneg _

/-- The key fact behind the amended C1: a feature whose node-weight column
has unbiased variance at least `1e-9` passes both checks when the node
weights are compared against themselves.  (Below `1e-9` the variance-ratio
flip `1.0 / (ratio + 1e-9)` exceeds 2 and the check fails, which is the
counterexample to the claim as stated.) -/
theorem dim_embedded_self (rows : List (List ℚ)) (d : ℕ)
    (h2 : 2 ≤ rows.length)
    (hv : (1/1000000000 : ℚ) ≤ varQ (colQ rows d)) :
    dim_embedded rows rows d = true := by
  have hn0 : ((rows.length : ℚ)) ≠ 0 := Nat.cast_ne_zero.mpr (by omega)
  have hv0 : (0 : ℚ) ≤ varQ (colQ rows d) := varQ_nonneg _
  have hvp : (0 : ℚ) < varQ (colQ rows d) + 1/1000000000 := by linarith
  simp only [dim_embedded]
  rw [meanF_eq rows d (by omega), varF_eq rows d h2]
  set μ := meanQ (colQ rows d) with hμ
  set v := varQ (colQ rows d) with hvdef
  have hd1 : F.val v / F.val ((rows.length : ℚ)) = F.val (v / (rows.length : ℚ)) :=
    F.val_div _ _ hn0
  have hd2 : F.val v / (F.val v + F.val (1/1000000000)) = F.val (v / (v + 1/1000000000)) := by
    show F.val v / F.val (v + 1/1000000000) = _
    exact F.val_div _ _ (ne_of_gt hvp)
  rw [hd1, hd2]
  have hm : F.le ((F.val μ - F.val μ) * (F.val μ - F.val μ))
      ((F.val (196/100) * F.val (196/100)) *
        (F.val (v / (rows.length : ℚ)) + F.val (v / (rows.length : ℚ)))) = true := by
    show decide ((μ - μ) * (μ - μ) ≤
      (196/100) * (196/100) * (v / (rows.length : ℚ) + v / (rows.length : ℚ))) = true
    rw [decide_eq_true_eq]
    have hnn : (0:ℚ) ≤ v / (rows.length : ℚ) := div_nonneg hv0 (Nat.cast_nonneg _)
    nlinarith [hnn]
  have hlt : F.lt (F.val (v / (v + 1/1000000000))) (F.val 1) = true := by
    show decide (v / (v + 1/1000000000) < 1) = true
    rw [decide_eq_true_eq, div_lt_one hvp]
    linarith
  have hq0 : (0:ℚ) ≤ v / (v + 1/1000000000) := div_nonneg hv0 (le_of_lt hvp)
  have hd3pos : (0:ℚ) < v / (v + 1/1000000000) + 1/1000000000 := by linarith
  have hd3 : F.val 1 / (F.val (v / (v + 1/1000000000)) + F.val (1/1000000000)) =
      F.val (1 / (v / (v + 1/1000000000) + 1/1000000000)) := by
    show F.val 1 / F.val (v / (v + 1/1000000000) + 1/1000000000) = _
    exact F.val_div _ _ (ne_of_gt hd3pos)
  have h12 : (1/2 : ℚ) ≤ v / (v + 1/1000000000) := by
    rw [le_div_iff₀ hvp]
    linarith
  have hfin : F.le (F.val (1 / (v / (v + 1/1000000000) + 1/1000000000))) (F.val 2) = true := by
    show decide (1 / (v / (v + 1/1000000000) + 1/1000000000) ≤ 2) = true
    rw [decide_eq_true_eq, div_le_iff₀ hd3pos]
    linarith
  rw [hm, hlt, if_pos rfl, hd3, hfin]
  rfl

/-- C1 counterexample: the claim as stated is false on the code.  With the
spec's own scenario — node weights and reference data both all zeros,
`D = 3` — every per-feature variance is zero, the variance ratio is
`0/(0+1e-9) = 0 < 1`, the flip yields `1.0/(0+1e-9) = 1e9 > 2.0`, so every
feature fails the variance check and the metric returns `0.0`, not `1.0`. -/
theorem calc_convergence_self_zeros_ne_one :
    (calc_convergence zeroMap zeroMap.weights (5/100)).1 = 0 ∧
    (calc_convergence zeroMap zeroMap.weights (5/100)).1 ≠ 1 := by
  with_unfolding_all decide

/-- C1 (amended): feeding the current node weights back in as the
reference data yields convergence exactly 1 provided the map has at least
two nodes and every feature's node-weight column has unbiased variance at
least `1e-9` (the epsilon in the source's variance-ratio flip); the
all-zero-weights case violates that proviso and returns 0 instead. -/
theorem calc_convergence_self_eq_one (m : SOOMap) (s : ℚ)
    (hD : 0 < m.input_dim)
    (hN : 2 ≤ m.weights.length)
    (hwf : ∀ r ∈ m.weights, r.length = m.input_dim)
    (hvar : ∀ d, d < m.input_dim → (1/1000000000 : ℚ) ≤ varQ (colQ m.weights d)) :
    (calc_convergence m m.weights s).1 = 1 := by
  show ((((List.range m.input_dim).filter
      (fun d => dim_embedded m.weights m.weights d)).length : ℚ) / (m.input_dim : ℚ)) = 1
  have hfil : ((List.range m.input_dim).filter
      (fun d => dim_embedded m.weights m.weights d)) = List.range m.input_dim := by
    apply List.filter_eq_self.mpr
    intro d hd
    exact dim_embedded_self m.weights d hN (hvar d (List.mem_range.mp hd))
  rw [hfil, List.length_range]
  exact div_self (Nat.cast_ne_zero.mpr (by omega))

/-- Witness for the amended C1 at a concrete two-node map whose single
feature has variance 2. -/
theorem calc_convergence_self_eq_one_witness :
    (calc_convergence selfMap selfMap.weights (5/100)).1 = 1 :=
  calc_convergence_self_eq_one selfMap (5/100) (by decide) (by decide) (by decide)
    (by with_unfolding_all decide)

/-- C6: the `significance` parameter of `calc_convergence` is inert — two
calls differing only in the passed significance return the same value and
the same post-state, because the body never reads the parameter and always
uses the fixed critical value 1.96. -/
theorem calc_convergence_significance_inert (m : SOOMap) (data_ref : List (List ℚ))
    (s1 s2 : ℚ) :
    calc_convergence m data_ref s1 = calc_convergence m data_ref s2 := rfl

/-- C10: `calc_convergence` leaves weights, coordinates, both learning
parameters (and every other field) unchanged; its only mutation is storing
the returned value in `last_cv`, and that value is `k / D` for the count
`k ≤ D` of embedded features. -/
theorem calc_convergence_frame (m : SOOMap) (data_ref : List (List ℚ)) (s : ℚ)
    (hD : 0 < m.input_dim)
    (href : ∀ r ∈ data_ref, r.length = m.input_dim) :
    (calc_convergence m data_ref s).2.weights = m.weights ∧
    (calc_convergence m data_ref s).2.coordinates = m.coordinates ∧
    (calc_convergence m data_ref s).2.current_lr = m.current_lr ∧
    (calc_convergence m data_ref s).2.current_radius = m.current_radius ∧
    (calc_convergence m data_ref s).2.initial_lr = m.initial_lr ∧
    (calc_convergence m data_ref s).2.initial_radius = m.initial_radius ∧
    (calc_convergence m data_ref s).2.num_nodes = m.num_nodes ∧
    (calc_convergence m data_ref s).2.input_dim = m.input_dim ∧
    (calc_convergence m data_ref s).2.last_cv = (calc_convergence m data_ref s).1 ∧
    ∃ k : ℕ, k ≤ m.input_dim ∧
      (calc_convergence m data_ref s).1 = (k : ℚ) / (m.input_dim : ℚ) := by
  refine ⟨rfl, rfl, rfl, rfl, rfl, rfl, rfl, rfl, rfl,
    ((List.range m.input_dim).filter (fun d => dim_embedded data_ref m.weights d)).length,
    ?_, rfl⟩
  calc ((List.range m.input_dim).filter (fun d => dim_embedded data_ref m.weights d)).length
      ≤ (List.range m.input_dim).length := List.length_filter_le _ _
    _ = m.input_dim := List.length_range _

/-- Witness for C10 at a concrete map and reference sample. -/
theorem calc_convergence_frame_witness :
    (calc_convergence degMap [[5]] (1/2)).2.weights = degMap.weights ∧
    (calc_convergence degMap [[5]] (1/2)).2.coordinates = degMap.coordinates ∧
    (calc_convergence degMap [[5]] (1/2)).2.current_lr = degMap.current_lr ∧
    (calc_convergence degMap [[5]] (1/2)).2.current_radius = degMap.current_radius ∧
    (calc_convergence degMap [[5]] (1/2)).2.initial_lr = degMap.initial_lr ∧
    (calc_convergence degMap [[5]] (1/2)).2.initial_radius = degMap.initial_radius ∧
    (calc_convergence degMap [[5]] (1/2)).2.num_nodes = degMap.num_nodes ∧
    (calc_convergence degMap [[5]] (1/2)).2.input_dim = degMap.input_dim ∧
    (calc_convergence degMap [[5]] (1/2)).2.last_cv = (calc_convergence degMap [[5]] (1/2)).1 ∧
    ∃ k : ℕ, k ≤ degMap.input_dim ∧
      (calc_convergence degMap [[5]] (1/2)).1 = (k : ℚ) / (degMap.input_dim : ℚ) :=
  calc_convergence_frame degMap [[5]] (1/2) (by decide) (by decide)

/-- C8 (code bug): on a degenerate reference sample of a single row, the
code does not surface any failure.  numpy's `var(ddof=1)` of the one-row
sample is NaN (`varF [[5]] 0 = F.nan`), every per-feature check involving
it is false, and `calc_convergence` silently returns `0.0` and stores it
in `last_cv`, from where it propagates into the decay schedule. -/
theorem degenerate_sample_silent_zero :
    varF [[5]] 0 = F.nan ∧
    (calc_convergence degMap [[5]] (5/100)).1 = 0 ∧
    (calc_convergence degMap [[5]] (5/100)).2.last_cv = 0 := by
  with_unfolding_all decide

/-- C7 (code bug): a length-1 input vector against a map with `D = 3` is a
dimension mismatch, yet neither per-sample update operation fails: torch
broadcasting silently stretches the scalar across all three feature
dimensions, `find_bmu` returns an index, and `update_weights` fully
rewrites the BMU row (here to `[5, 5, 5]`). -/
theorem broadcast_mismatch_silently_accepted :
    bcastMap.input_dim = 3 ∧
    ([5] : List ℚ).length = 1 ∧
    find_bmu_checked bcastMap [5] = some 1 ∧
    (update_weights_checked bcastMap 1 [5] 1).map SOOMap.weights =
      some [[0, 0, 0], [5, 5, 5]] := by
  with_unfolding_all decide

/-! ### The training loop -/

theorem train_step_initial_lr (m : SOOMap) (x : List ℚ) :
    (train_step m x).initial_lr = m.initial_lr := rfl

theorem train_step_initial_radius (m : SOOMap) (x : List ℚ) :
    (train_step m x).initial_radius = m.initial_radius := rfl

theorem foldl_train_step_initial_lr :
    ∀ (l : List (List ℚ)) (m : SOOMap), (l.foldl train_step m).initial_lr = m.initial_lr := by
  intro l
  induction l with
  | nil => intro m; rfl
  | cons x t ih =>
    intro m
    show (t.foldl train_step (train_step m x)).initial_lr = m.initial_lr
    rw [ih, train_step_initial_lr]

theorem foldl_train_step_initial_radius :
    ∀ (l : List (List ℚ)) (m : SOOMap), (l.foldl train_step m).initial_radius = m.initial_radius := by
  intro l
  induction l with
  | nil => intro m; rfl
  | cons x t ih =>
    intro m
    show (t.foldl train_step (train_step m x)).initial_radius = m.initial_radius
    rw [ih, train_step_initial_radius]

theorem batches_fold_initial_lr :
    ∀ (L : List (List (List ℚ))) (m : SOOMap),
      (L.foldl (fun acc batch => batch.foldl train_step acc) m).initial_lr = m.initial_lr := by
  intro L
  induction L with
  | nil => intro m; rfl
  | cons batch t ih =>
    intro m
    show (t.foldl _ (batch.foldl train_step m)).initial_lr = m.initial_lr
    rw [ih, foldl_train_step_initial_lr]

theorem batches_fold_initial_radius :
    ∀ (L : List (List (List ℚ))) (m : SOOMap),
      (L.foldl (fun acc batch => batch.foldl train_step acc) m).initial_radius =
        m.initial_radius := by
  intro L
  induction L with
  | nil => intro m; rfl
  | cons batch t ih =>
    intro m
    show (t.foldl _ (batch.foldl train_step m)).initial_radius = m.initial_radius
    rw [ih, foldl_train_step_initial_radius]

/-- The decay step at the end of `run_epoch`, with the epoch's convergence
value read back from the stored `last_cv`. -/
theorem run_epoch_decay (m : SOOMap) (ref_data shuffled : List (List ℚ)) (bs : ℕ)
    (min_lr min_radius : ℚ) :
    (run_epoch m ref_data shuffled bs min_lr min_radius).current_lr =
      max min_lr (m.initial_lr *
        (1 - (run_epoch m ref_data shuffled bs min_lr min_radius).last_cv)) ∧
    (run_epoch m ref_data shuffled bs min_lr min_radius).current_radius =
      max min_radius (m.initial_radius *
        (1 - (run_epoch m ref_data shuffled bs min_lr min_radius).last_cv)) ∧
    (run_epoch m ref_data shuffled bs min_lr min_radius).initial_lr = m.initial_lr ∧
    (run_epoch m ref_data shuffled bs min_lr min_radius).initial_radius = m.initial_radius := by
  refine ⟨?_, ?_, batches_fold_initial_lr _ _, batches_fold_initial_radius _ _⟩
  · show max min_lr
        (((batches bs shuffled).foldl (fun acc batch => batch.foldl train_step acc) m).initial_lr *
          (1 - (calc_convergence
            ((batches bs shuffled).foldl (fun acc batch => batch.foldl train_step acc) m)
            ref_data (5/100)).1)) = _
    rw [batches_fold_initial_lr]
    rfl
  · show max min_radius
        (((batches bs shuffled).foldl (fun acc batch => batch.foldl train_step acc) m).initial_radius *
          (1 - (calc_convergence
            ((batches bs shuffled).foldl (fun acc batch => batch.foldl train_step acc) m)
            ref_data (5/100)).1)) = _
    rw [batches_fold_initial_radius]
    rfl

theorem train_initial_lr (data : List (List ℚ)) (ref_data : List (List ℚ)) (bs : ℕ)
    (a b : ℚ) :
    ∀ (perms : List (List ℕ)) (m : SOOMap),
      (train m data perms ref_data bs a b).initial_lr = m.initial_lr := by
  intro perms
  induction perms with
  | nil => intro m; rfl
  | cons p ps ih =>
    intro m
    show (train (run_epoch m ref_data _ bs a b) data ps ref_data bs a b).initial_lr = _
    rw [ih, (run_epoch_decay _ _ _ _ _ _).2.2.1]

theorem train_initial_radius (data : List (List ℚ)) (ref_data : List (List ℚ)) (bs : ℕ)
    (a b : ℚ) :
    ∀ (perms : List (List ℕ)) (m : SOOMap),
      (train m data perms ref_data bs a b).initial_radius = m.initial_radius := by
  intro perms
  induction perms with
  | nil => intro m; rfl
  | cons p ps ih =>
    intro m
    show (train (run_epoch m ref_data _ bs a b) data ps ref_data bs a b).initial_radius = _
    rw [ih, (run_epoch_decay _ _ _ _ _ _).2.2.2]

theorem train_take_succ (m : SOOMap) (data : List (List ℚ)) (perms : List (List ℕ))
    (ref_data : List (List ℚ)) (bs : ℕ) (a b : ℚ) (k : ℕ) (hk : k < perms.length) :
    train m data (perms.take (k+1)) ref_data bs a b =
      run_epoch (train m data (perms.take k) ref_data bs a b) ref_data
        ((perms.getD k []).map (fun i => data.getD i [])) bs a b := by
  unfold train
  rw [List.take_succ, List.getElem?_eq_getElem hk, Option.toList_some, List.foldl_append,
    List.getD_eq_getElem _ _ hk]
  rfl

/-- C3: at the end of each epoch of `train`, the learning rate is set to
`max(min_lr, initial_lr * (1 - cv))` and the radius to
`max(min_radius, initial_radius * (1 - cv))`, where `cv` is the epoch's
convergence (stored in `last_cv`); hence from the first decay step on both
are at least their caller-supplied floors, and whenever the per-epoch
convergence values are non-decreasing, both are non-increasing across
epochs. -/
theorem train_decay_spec (m : SOOMap) (data : List (List ℚ)) (perms : List (List ℕ))
    (ref_data : List (List ℚ)) (batch_size : ℕ) (min_lr min_radius : ℚ)
    (hlr : 0 ≤ m.initial_lr) (hrad : 0 ≤ m.initial_radius) :
    (∀ k, k < perms.length →
      (train m data (perms.take (k+1)) ref_data batch_size min_lr min_radius).current_lr =
        max min_lr (m.initial_lr * (1 -
          (train m data (perms.take (k+1)) ref_data batch_size min_lr min_radius).last_cv)) ∧
      (train m data (perms.take (k+1)) ref_data batch_size min_lr min_radius).current_radius =
        max min_radius (m.initial_radius * (1 -
          (train m data (perms.take (k+1)) ref_data batch_size min_lr min_radius).last_cv))) ∧
    (∀ k, k < perms.length →
      min_lr ≤
        (train m data (perms.take (k+1)) ref_data batch_size min_lr min_radius).current_lr ∧
      min_radius ≤
        (train m data (perms.take (k+1)) ref_data batch_size min_lr min_radius).current_radius) ∧
    ((∀ k, k + 1 < perms.length →
        (train m data (perms.take (k+1)) ref_data batch_size min_lr min_radius).last_cv ≤
          (train m data (perms.take (k+2)) ref_data batch_size min_lr min_radius).last_cv) →
      ∀ j k, 1 ≤ j → j ≤ k → k ≤ perms.length →
        (train m data (perms.take k) ref_data batch_size min_lr min_radius).current_lr ≤
          (train m data (perms.take j) ref_data batch_size min_lr min_radius).current_lr ∧
        (train m data (perms.take k) ref_data batch_size min_lr min_radius).current_radius ≤
          (train m data (perms.take j) ref_data batch_size min_lr min_radius).current_radius) := by
  have hstep : ∀ k, k < perms.length →
      (train m data (perms.take (k+1)) ref_data batch_size min_lr min_radius).current_lr =
        max min_lr (m.initial_lr * (1 -
          (train m data (perms.take (k+1)) ref_data batch_size min_lr min_radius).last_cv)) ∧
      (train m data (perms.take (k+1)) ref_data batch_size min_lr min_radius).current_radius =
        max min_radius (m.initial_radius * (1 -
          (train m data (perms.take (k+1)) ref_data batch_size min_lr min_radius).last_cv)) := by
    intro k hk
    rw [train_take_succ m data perms ref_data batch_size min_lr min_radius k hk]
    obtain ⟨h1, h2, -, -⟩ := run_epoch_decay
      (train m data (perms.take k) ref_data batch_size min_lr min_radius) ref_data
      ((perms.getD k []).map (fun i => data.getD i [])) batch_size min_lr min_radius
    rw [train_initial_lr] at h1
    rw [train_initial_radius] at h2
    exact ⟨h1, h2⟩
  refine ⟨hstep, ?_, ?_⟩
  · intro k hk
    obtain ⟨h1, h2⟩ := hstep k hk
    rw [h1, h2]
    exact ⟨le_max_left _ _, le_max_left _ _⟩
  · intro hmono j k hj hjk
    induction k, hjk using Nat.le_induction with
    | base => intro _; exact ⟨le_refl _, le_refl _⟩
    | succ k hk ih =>
      intro hkl
      obtain ⟨ih1, ih2⟩ := ih (by omega)
      have hk1 : 1 ≤ k := le_trans hj hk
      obtain ⟨t, rfl⟩ : ∃ t, k = t + 1 := ⟨k - 1, by omega⟩
      obtain ⟨e1, e2⟩ := hstep (t + 1) (by omega)
      obtain ⟨f1, f2⟩ := hstep t (by omega)
      have hcv := hmono t (by omega)
      constructor
      · refine le_trans ?_ ih1
        rw [e1, f1]
        apply max_le_max (le_refl min_lr)
        apply mul_le_mul_of_nonneg_left _ hlr
        linarith
      · refine le_trans ?_ ih2
        rw [e2, f2]
        apply max_le_max (le_refl min_radius)
        apply mul_le_mul_of_nonneg_left _ hrad
        linarith

/-- Witness for C3 at a concrete one-epoch training run. -/
theorem train_decay_spec_witness :
    (∀ k, k < ([[0]] : List (List ℕ)).length →
      (train degMap [[2]] ([[0]].take (k+1)) [[2], [4]] 1 (1/100) (2/100)).current_lr =
        max (1/100) (degMap.initial_lr * (1 -
          (train degMap [[2]] ([[0]].take (k+1)) [[2], [4]] 1 (1/100) (2/100)).last_cv)) ∧
      (train degMap [[2]] ([[0]].take (k+1)) [[2], [4]] 1 (1/100) (2/100)).current_radius =
        max (2/100) (degMap.initial_radius * (1 -
          (train degMap [[2]] ([[0]].take (k+1)) [[2], [4]] 1 (1/100) (2/100)).last_cv))) ∧
    (∀ k, k < ([[0]] : List (List ℕ)).length →
      (1/100 : ℚ) ≤
        (train degMap [[2]] ([[0]].take (k+1)) [[2], [4]] 1 (1/100) (2/100)).current_lr ∧
      (2/100 : ℚ) ≤
        (train degMap [[2]] ([[0]].take (k+1)) [[2], [4]] 1 (1/100) (2/100)).current_radius) ∧
    ((∀ k, k + 1 < ([[0]] : List (List ℕ)).length →
        (train degMap [[2]] ([[0]].take (k+1)) [[2], [4]] 1 (1/100) (2/100)).last_cv ≤
          (train degMap [[2]] ([[0]].take (k+2)) [[2], [4]] 1 (1/100) (2/100)).last_cv) →
      ∀ j k, 1 ≤ j → j ≤ k → k ≤ ([[0]] : List (List ℕ)).length →
        (train degMap [[2]] ([[0]].take k) [[2], [4]] 1 (1/100) (2/100)).current_lr ≤
          (train degMap [[2]] ([[0]].take j) [[2], [4]] 1 (1/100) (2/100)).current_lr ∧
        (train degMap [[2]] ([[0]].take k) [[2], [4]] 1 (1/100) (2/100)).current_radius ≤
          (train degMap [[2]] ([[0]].take j) [[2], [4]] 1 (1/100) (2/100)).current_radius) :=
  train_decay_spec degMap [[2]] [[0]] [[2], [4]] 1 (1/100) (2/100)
    (by with_unfolding_all decide) (by with_unfolding_all decide)

/-! ### Batch grouping -/

theorem batches_flatten {α : Type} (bs : ℕ) : ∀ (l : List α), (batches bs l).flatten = l := by
  have H : ∀ (n : ℕ) (l : List α), l.length = n → (batches bs l).flatten = l := by
    intro n
    induction n using Nat.strong_induction_on with
    | _ n ih =>
      intro l hn
      cases l with
      | nil =>
        rw [batches]
        rfl
      | cons x xs =>
        rw [batches, List.flatten_cons,
          ih ((xs.drop (bs - 1)).length)
            (by simp only [List.length_drop]; simp only [List.length_cons] at hn; omega) _ rfl,
          List.cons_append, List.take_append_drop]
  intro l
  exact H l.length l rfl

theorem epoch_fold_eq (bs : ℕ) (s : List (List ℚ)) (m : SOOMap) :
    (batches bs s).foldl (fun acc batch => batch.foldl train_step acc) m =
      s.foldl train_step m := by
  conv_rhs => rw [← batches_flatten bs s]
  rw [List.foldl_flatten]

theorem run_epoch_batch_size_eq (m : SOOMap) (ref_data shuffled : List (List ℚ)) (bs : ℕ)
    (a b : ℚ) :
    run_epoch m ref_data shuffled bs a b = run_epoch m ref_data shuffled 1 a b := by
  simp only [run_epoch]
  rw [epoch_fold_eq, epoch_fold_eq]

/-- C9: with the same per-epoch shuffle permutations and the same fixed
reference subsample, training with any batch size `b ≥ 1` produces exactly
the same final state — weights, coordinates and convergence values included
— as training with batch size 1: the batch slicing only regroups the
sequential per-sample updates.  (At `b = 0` Python's `range` raises, which
this embedding does not model; hence the hypothesis.) -/
theorem train_batch_size_irrelevant (m : SOOMap) (data : List (List ℚ))
    (perms : List (List ℕ)) (ref_data : List (List ℚ)) (batch_size : ℕ) (a b : ℚ)
    (hbs : 1 ≤ batch_size) :
    train m data perms ref_data batch_size a b = train m data perms ref_data 1 a b := by
  unfold train
  induction perms generalizing m with
  | nil => rfl
  | cons p ps ih =>
    simp only [List.foldl_cons]
    rw [run_epoch_batch_size_eq, ih]

/-- Witness for C9 at a concrete map, dataset and permutation with batch
size 2 versus 1. -/
theorem train_batch_size_irrelevant_witness :
    train degMap [[2]] [[0]] [[2], [4]] 2 (1/100) (1/100) =
      train degMap [[2]] [[0]] [[2], [4]] 1 (1/100) (1/100) :=
  train_batch_size_irrelevant degMap [[2]] [[0]] [[2], [4]] 2 (1/100) (1/100) (by decide)

end SOO
